import Mathlib

/-
Verification of the RomanticOS kernel sources against its specification.

The development shallowly embeds the Rust sources:
  * `src/src/filesystem.rs`  — the in-memory virtual filesystem (inodes,
    open-file table, create/mkdir/open/close/read/write);
  * `src/src/process.rs`     — the process manager and round-robin scheduler;
  * `src/src/memory.rs` and `src/syscall.rs` — the page allocator,
    `sys_mmap` and `sys_getpid`;
  * `src/src/drivers/keyboard.rs` — the bounded keyboard FIFO.

Rust `Vec<T>` becomes `List T`, `BTreeMap<String, usize>` becomes an
association list with in-place-replacing insert (ordering is irrelevant to
the properties proved here), bytes (`u8`) become `Nat`, `i32`/`i64` become
`Int`.  Methods taking `&mut self` become functions returning the result
paired with the updated state; every error path in the Rust code returns
before mutating, and the embedding returns the unchanged state there.
Out-of-range `Vec` indexing (a Rust panic, unreachable in the states the
kernel constructs) is mapped to the absent/None case of the same lookup.
-/

set_option maxRecDepth 100000

namespace RomanticOS

instance {ε α : Type} [DecidableEq ε] [DecidableEq α] : DecidableEq (Except ε α) := fun x y =>
  match x, y with
  | .ok a, .ok b =>
    if h : a = b then .isTrue (by rw [h]) else .isFalse (by intro hc; cases hc; exact h rfl)
  | .error a, .error b =>
    if h : a = b then .isTrue (by rw [h]) else .isFalse (by intro hc; cases hc; exact h rfl)
  | .ok _, .error _ => .isFalse (by intro hc; cases hc)
  | .error _, .ok _ => .isFalse (by intro hc; cases hc)

/-! ## Virtual filesystem (src/src/filesystem.rs) -/

def MAX_OPEN_FILES : Nat := 1024

def MAX_FILE_SIZE : Nat := 1024 * 1024

inductive FileType
  | Regular
  | Directory
  | Device
deriving DecidableEq

structure FileMode where
  read : Bool
  write : Bool
  execute : Bool
deriving DecidableEq

structure Inode where
  inode_num : Nat
  file_type : FileType
  mode : FileMode
  size : Nat
  data : List Nat
  children : List (List Char × Nat)
deriving DecidableEq

def Inode.new_file (inode_num : Nat) (mode : FileMode) : Inode :=
  { inode_num := inode_num, file_type := FileType.Regular, mode := mode,
    size := 0, data := [], children := [] }

def Inode.new_dir (inode_num : Nat) (mode : FileMode) : Inode :=
  { inode_num := inode_num, file_type := FileType.Directory, mode := mode,
    size := 0, data := [], children := [] }

structure OpenFile where
  inode : Nat
  offset : Nat
  flags : Int
deriving DecidableEq

structure VirtualFileSystem where
  inodes : List (Option Inode)
  open_files : List (Option OpenFile)
  next_inode : Nat
  root_inode : Nat
deriving DecidableEq

/-- Lookup in the `BTreeMap<String, usize>` child map. -/
def mapGet : List (List Char × Nat) → List Char → Option Nat
  | [], _ => none
  | (k, v) :: rest, key => if key = k then some v else mapGet rest key

/-- `BTreeMap::insert`: replaces the binding when the key is present. -/
def mapInsert : List (List Char × Nat) → List Char → Nat → List (List Char × Nat)
  | [], key, v => [(key, v)]
  | (k, v') :: rest, key, v =>
    if key = k then (key, v) :: rest else (k, v') :: mapInsert rest key v

/-- `path.split('/')` over the character list, accumulator-style. -/
def splitSegsAux : List Char → List Char → List (List Char)
  | [], acc => [acc.reverse]
  | c :: rest, acc =>
    if c = '/' then acc.reverse :: splitSegsAux rest [] else splitSegsAux rest (c :: acc)

/-- `path.split('/').filter(|s| !s.is_empty())`. -/
def pathParts (path : String) : List (List Char) :=
  (splitSegsAux path.toList []).filter (fun s => s ≠ [])

def VirtualFileSystem.new : VirtualFileSystem :=
  { inodes := (List.replicate 1024 (none : Option Inode)).set 0
      (some (Inode.new_dir 0 { read := true, write := true, execute := true })),
    open_files := List.replicate MAX_OPEN_FILES (none : Option OpenFile),
    next_inode := 1,
    root_inode := 0 }

def VirtualFileSystem.allocate_inode (vfs : VirtualFileSystem) :
    Option Nat × VirtualFileSystem :=
  if vfs.next_inode ≥ vfs.inodes.length then (none, vfs)
  else (some vfs.next_inode, { vfs with next_inode := vfs.next_inode + 1 })

/-- `allocate_fd`: linear scan for the first free descriptor slot. -/
def findFreeSlot : List (Option OpenFile) → Nat → Option Nat
  | [], _ => none
  | none :: _, i => some i
  | some _ :: rest, i => findFreeSlot rest (i + 1)

/-- `traverse_path`, with the current inode as an explicit accumulator
(`current` starts at `root_inode`). -/
def VirtualFileSystem.traverse (vfs : VirtualFileSystem) :
    List (List Char) → Nat → Except String Nat
  | [], current => .ok current
  | part :: rest, current =>
    match vfs.inodes.getD current none with
    | some inode =>
      if inode.file_type = FileType.Directory then
        match mapGet inode.children part with
        | some next => vfs.traverse rest next
        | none => .error "Path not found"
      else .error "Not a directory"
    | none => .error "Invalid inode"

def VirtualFileSystem.create (vfs : VirtualFileSystem) (path : String) (mode : FileMode) :
    Except String Nat × VirtualFileSystem :=
  let parts := pathParts path
  if parts = [] then (.error "Invalid path", vfs)
  else
    let filename := parts.getLastD []
    match vfs.traverse parts.dropLast vfs.root_inode with
    | .error e => (.error e, vfs)
    | .ok parent_inode =>
      let dup :=
        match vfs.inodes.getD parent_inode none with
        | some parent => (mapGet parent.children filename).isSome
        | none => false
      if dup then (.error "File already exists", vfs)
      else
        match vfs.allocate_inode with
        | (none, v) => (.error "Out of inodes", v)
        | (some inode_num, v) =>
          let v := { v with inodes := v.inodes.set inode_num (some (Inode.new_file inode_num mode)) }
          let v :=
            match v.inodes.getD parent_inode none with
            | some parent =>
              { v with inodes := (v.inodes.set parent_inode
                  (some { parent with children := mapInsert parent.children filename inode_num })) }
            | none => v
          (.ok inode_num, v)

/-- `mkdir`: note the source performs no existence check for the final
component; `BTreeMap::insert` silently replaces an existing child entry. -/
def VirtualFileSystem.mkdir (vfs : VirtualFileSystem) (path : String) (mode : FileMode) :
    Except String Nat × VirtualFileSystem :=
  let parts := pathParts path
  if parts = [] then (.error "Invalid path", vfs)
  else
    let dirname := parts.getLastD []
    match vfs.traverse parts.dropLast vfs.root_inode with
    | .error e => (.error e, vfs)
    | .ok parent_inode =>
      match vfs.allocate_inode with
      | (none, v) => (.error "Out of inodes", v)
      | (some inode_num, v) =>
        let v := { v with inodes := v.inodes.set inode_num (some (Inode.new_dir inode_num mode)) }
        let v :=
          match v.inodes.getD parent_inode none with
          | some parent =>
            { v with inodes := (v.inodes.set parent_inode
                (some { parent with children := mapInsert parent.children dirname inode_num })) }
          | none => v
        (.ok inode_num, v)

def VirtualFileSystem.openFile (vfs : VirtualFileSystem) (path : String) (flags : Int) :
    Except String Int × VirtualFileSystem :=
  let parts := pathParts path
  match vfs.traverse parts vfs.root_inode with
  | .error e => (.error e, vfs)
  | .ok inode_num =>
    match findFreeSlot vfs.open_files 0 with
    | none => (.error "Too many open files", vfs)
    | some fd =>
      (.ok (fd : Int),
       { vfs with open_files := (vfs.open_files.set fd
           (some { inode := inode_num, offset := 0, flags := flags })) })

def VirtualFileSystem.close (vfs : VirtualFileSystem) (fd : Int) :
    Except String Unit × VirtualFileSystem :=
  if fd < 0 ∨ vfs.open_files.length ≤ fd.toNat then
    (.error "Invalid file descriptor", vfs)
  else
    (.ok (), { vfs with open_files := (vfs.open_files.set fd.toNat none) })

/-- `read(fd, buf)` with `bufLen = buf.len()`; the drained bytes are returned
as a list (the Rust code copies them into `buf` and returns their count). -/
def VirtualFileSystem.read (vfs : VirtualFileSystem) (fd : Int) (bufLen : Nat) :
    Except String (List Nat) × VirtualFileSystem :=
  if fd < 0 ∨ vfs.open_files.length ≤ fd.toNat then
    (.error "Invalid file descriptor", vfs)
  else
    match vfs.open_files.getD fd.toNat none with
    | none => (.error "File not open", vfs)
    | some ofile =>
      match vfs.inodes.getD ofile.inode none with
      | none => (.error "Invalid inode", vfs)
      | some inode =>
        if inode.mode.read = false then (.error "Permission denied", vfs)
        else
          let start := ofile.offset
          let stop := min (start + bufLen) inode.data.length
          let bytes := (inode.data.drop start).take (stop - start)
          (.ok bytes,
           { vfs with open_files := (vfs.open_files.set fd.toNat
               (some { ofile with offset := stop })) })

/-- `Vec::resize(n, 0)` in the growing direction. -/
def resizeGrow (data : List Nat) (n : Nat) : List Nat :=
  data ++ List.replicate (n - data.length) 0

/-- `data[start..start+buf.len()].copy_from_slice(buf)`. -/
def writeAt (data : List Nat) (o : Nat) (buf : List Nat) : List Nat :=
  data.take o ++ buf ++ data.drop (o + buf.length)

def VirtualFileSystem.write (vfs : VirtualFileSystem) (fd : Int) (buf : List Nat) :
    Except String Nat × VirtualFileSystem :=
  if fd < 0 ∨ vfs.open_files.length ≤ fd.toNat then
    (.error "Invalid file descriptor", vfs)
  else
    match vfs.open_files.getD fd.toNat none with
    | none => (.error "File not open", vfs)
    | some ofile =>
      match vfs.inodes.getD ofile.inode none with
      | none => (.error "Invalid inode", vfs)
      | some inode =>
        if inode.mode.write = false then (.error "Permission denied", vfs)
        else
          let start := ofile.offset
          if start + buf.length > inode.data.length ∧ start + buf.length > MAX_FILE_SIZE then
            (.error "File too large", vfs)
          else
            let d := if start + buf.length > inode.data.length
                     then resizeGrow inode.data (start + buf.length)
                     else inode.data
            (.ok buf.length,
             { vfs with
                 inodes := (vfs.inodes.set ofile.inode
                   (some { inode with data := writeAt d start buf,
                                      size := max inode.size (start + buf.length) })),
                 open_files := (vfs.open_files.set fd.toNat
                   (some { ofile with offset := start + buf.length })) })

/-- `filesystem::init()`: the seeded filesystem (`.ok()` discards errors). -/
def fsInit : VirtualFileSystem :=
  let v := VirtualFileSystem.new
  let v := (v.mkdir "/dev" { read := true, write := true, execute := true }).2
  let v := (v.mkdir "/tmp" { read := true, write := true, execute := true }).2
  let v := (v.mkdir "/home" { read := true, write := true, execute := true }).2
  (v.create "/hello.txt" { read := true, write := true, execute := false }).2

/-- Global `close` wrapper (−1 on error, 0 on success). -/
def closeSys (vfs : VirtualFileSystem) (fd : Int) : Int × VirtualFileSystem :=
  match vfs.close fd with
  | (.ok _, v) => (0, v)
  | (.error _, v) => (-1, v)

/-- A demonstration state: the seeded filesystem with `/hello.txt` opened
twice (descriptors 0 and 1, both at offset 0 on inode 4). -/
def vfsDemo : VirtualFileSystem :=
  ((fsInit.openFile "/hello.txt" 0).2.openFile "/hello.txt" 0).2

/-! ## Process manager and scheduler (src/src/process.rs)

The `Process` embedding keeps the fields the scheduler consults (`pid`,
`state`) together with the unused `priority` and `time_slice` defaults; the
saved register context and the kernel/user stacks are machine-level data
never read by the scheduling logic and are omitted. -/

inductive ProcessState
  | Ready
  | Running
  | Blocked
  | Terminated
deriving DecidableEq

structure Process where
  pid : Nat
  state : ProcessState
  priority : Nat
  time_slice : Nat
deriving DecidableEq

/-- `Process::new`: the pid comes from the global `PID_COUNTER`. -/
def Process.new (pid : Nat) : Process :=
  { pid := pid, state := ProcessState.Ready, priority := 10, time_slice := 10 }

structure ProcessManager where
  processes : List Process
  ready_queue : List Nat
  current_pid : Option Nat
  scheduler_ticks : Nat
deriving DecidableEq

def ProcessManager.new : ProcessManager :=
  { processes := [], ready_queue := [], current_pid := none, scheduler_ticks := 0 }

/-- `self.processes.iter().find(|p| p.pid == pid)`. -/
def findFirst : List Process → Nat → Option Process
  | [], _ => none
  | p :: rest, pid => if p.pid = pid then some p else findFirst rest pid

/-- Mutation through `iter_mut().find(|p| p.pid == pid)`: update the first
process with the given pid, if any. -/
def modifyFirst : List Process → Nat → (Process → Process) → List Process
  | [], _, _ => []
  | p :: rest, pid, f =>
    if p.pid = pid then f p :: rest else p :: modifyFirst rest pid f

def ProcessManager.add_process (m : ProcessManager) (p : Process) : ProcessManager :=
  { m with processes := m.processes ++ [p], ready_queue := m.ready_queue ++ [p.pid] }

def ProcessManager.get_current_process (m : ProcessManager) : Option Process :=
  m.current_pid.bind (fun pid => findFirst m.processes pid)

/-- The `while let Some(pid) = self.ready_queue.pop_front()` selection loop:
skip entries whose process is missing or no longer `Ready`; promote the
first `Ready` one. -/
def selectNext (ps : List Process) : List Nat → Option (Nat × List Process × List Nat)
  | [] => none
  | pid :: rest =>
    match findFirst ps pid with
    | some p =>
      if p.state = ProcessState.Ready then
        some (pid, modifyFirst ps pid (fun q => { q with state := ProcessState.Running }), rest)
      else selectNext ps rest
    | none => selectNext ps rest

/-- The first phase of `schedule`: if the current process exists and is
still `Running`, demote it to `Ready` and re-enqueue its pid. -/
def demoteCurrent (m : ProcessManager) : ProcessManager :=
  match m.current_pid with
  | none => m
  | some cp =>
    match findFirst m.processes cp with
    | none => m
    | some p =>
      if p.state = ProcessState.Running then
        { m with
            processes := (modifyFirst m.processes cp
              (fun q => { q with state := ProcessState.Ready })),
            ready_queue := m.ready_queue ++ [cp] }
      else m

/-- The second phase of `schedule`: run the selection loop over the ready
queue; on success install the promoted process as current, on exhaustion the
queue is left empty. -/
def selectPhase (md : ProcessManager) : Option Nat × ProcessManager :=
  match selectNext md.processes md.ready_queue with
  | some (pid, ps2, rest) =>
    (some pid, { md with processes := ps2, ready_queue := rest, current_pid := some pid })
  | none => (none, { md with ready_queue := [] })

/-- `ProcessManager::schedule`: bump the tick counter, demote the current
process if still `Running`, then run the selection loop; returns the
selected pid (the Rust code returns `Option<&mut Process>`) paired with the
updated manager. -/
def ProcessManager.schedule (m : ProcessManager) : Option Nat × ProcessManager :=
  selectPhase (demoteCurrent { m with scheduler_ticks := m.scheduler_ticks + 1 })

def ProcessManager.terminate_current (m : ProcessManager) : ProcessManager :=
  match m.current_pid with
  | none => m
  | some pid =>
    { m with
        processes := (modifyFirst m.processes pid
          (fun p => { p with state := ProcessState.Terminated })),
        current_pid := none }

def ProcessManager.block_current (m : ProcessManager) : ProcessManager :=
  { m with
      processes :=
        (match m.current_pid with
         | none => m.processes
         | some pid => modifyFirst m.processes pid
             (fun p => { p with state := ProcessState.Blocked })),
      current_pid := none }

def ProcessManager.unblock_process (m : ProcessManager) (pid : Nat) : ProcessManager :=
  match findFirst m.processes pid with
  | some p =>
    if p.state = ProcessState.Blocked then
      { m with
          processes := (modifyFirst m.processes pid
            (fun q => { q with state := ProcessState.Ready })),
          ready_queue := m.ready_queue ++ [pid] }
    else m
  | none => m

/-- The process subsystem: the manager plus the global `PID_COUNTER`. -/
structure ProcSys where
  manager : ProcessManager
  pid_counter : Nat
deriving DecidableEq

def ProcSys.start : ProcSys := { manager := ProcessManager.new, pid_counter := 1 }

/-- One kernel operation on the process subsystem: spawning a fresh process
(`Process::new` + `add_process`), a scheduler tick, `terminate_current`,
`block_current`, or `unblock_process`. -/
inductive ProcStep : ProcSys → ProcSys → Prop
  | add (s : ProcSys) :
      ProcStep s { manager := s.manager.add_process (Process.new s.pid_counter),
                   pid_counter := s.pid_counter + 1 }
  | sched (s : ProcSys) :
      ProcStep s { manager := (s.manager.schedule).2, pid_counter := s.pid_counter }
  | term (s : ProcSys) :
      ProcStep s { manager := s.manager.terminate_current, pid_counter := s.pid_counter }
  | block (s : ProcSys) :
      ProcStep s { manager := s.manager.block_current, pid_counter := s.pid_counter }
  | unblock (s : ProcSys) (pid : Nat) :
      ProcStep s { manager := s.manager.unblock_process pid, pid_counter := s.pid_counter }

inductive ProcReachable : ProcSys → Prop
  | start : ProcReachable ProcSys.start
  | step {s t : ProcSys} : ProcReachable s → ProcStep s t → ProcReachable t

/-- A demonstration process-subsystem state whose current process has pid 2:
spawn twice, then schedule twice (round-robin moves from pid 1 to pid 2). -/
def pmDemo : ProcSys :=
  let s0 := ProcSys.start
  let s1 : ProcSys :=
    { manager := s0.manager.add_process (Process.new s0.pid_counter),
      pid_counter := s0.pid_counter + 1 }
  let s2 : ProcSys :=
    { manager := s1.manager.add_process (Process.new s1.pid_counter),
      pid_counter := s1.pid_counter + 1 }
  let s3 : ProcSys := { manager := (s2.manager.schedule).2, pid_counter := s2.pid_counter }
  { manager := (s3.manager.schedule).2, pid_counter := s3.pid_counter }

/-- A single spawned process: the subsystem right after one `add`. -/
def pmOne : ProcSys :=
  { manager := ProcSys.start.manager.add_process (Process.new ProcSys.start.pid_counter),
    pid_counter := ProcSys.start.pid_counter + 1 }

/-- The inductive invariant of the process subsystem: pids are below the
counter and pairwise distinct; every `Running` process is the one `current`
points to, and `current` points to a `Running` process when set; every
`Ready` process has its pid in the ready queue; and every queue entry is the
pid of some process. -/
def PMInv (s : ProcSys) : Prop :=
  (∀ p ∈ s.manager.processes, p.pid < s.pid_counter) ∧
  (s.manager.processes.map Process.pid).Nodup ∧
  (∀ p ∈ s.manager.processes, p.state = ProcessState.Running →
      s.manager.current_pid = some p.pid) ∧
  (∀ q, s.manager.current_pid = some q →
      ∃ p ∈ s.manager.processes, p.pid = q ∧ p.state = ProcessState.Running) ∧
  (∀ p ∈ s.manager.processes, p.state = ProcessState.Ready →
      p.pid ∈ s.manager.ready_queue) ∧
  (∀ q ∈ s.manager.ready_queue, q ∈ s.manager.processes.map Process.pid)

/-- The state of the manager between the demotion phase and the selection
loop of `schedule`: no process is `Running` at that point. -/
def MidInv (m : ProcessManager) (c : Nat) : Prop :=
  (∀ p ∈ m.processes, p.pid < c) ∧
  (m.processes.map Process.pid).Nodup ∧
  (∀ p ∈ m.processes, p.state ≠ ProcessState.Running) ∧
  (∀ p ∈ m.processes, p.state = ProcessState.Ready → p.pid ∈ m.ready_queue) ∧
  (∀ q ∈ m.ready_queue, q ∈ m.processes.map Process.pid)

/-! ## Memory manager and syscalls (src/src/memory.rs, src/syscall.rs) -/

def USER_SPACE_START : Nat := 0x0000400000000000

/-- `find_free_pages` ignores its argument and always yields the page
containing `USER_SPACE_START` (returned as a page number). -/
def find_free_pages (_count : Nat) : Option Nat :=
  some (USER_SPACE_START / 4096)

/-- The memory manager: the boot memory map's stream of usable frames with
the bump cursor (`BootInfoFrameAllocator`), plus the set of virtual-page
mappings held by the page-table mapper. -/
structure MemoryManager where
  frames : List Nat
  next : Nat
  mappings : List (Nat × Nat)
deriving DecidableEq

/-- `allocate_frame`: `usable_frames().nth(self.next)`, then `next += 1`. -/
def MemoryManager.allocate_frame (mm : MemoryManager) : Option Nat × MemoryManager :=
  (mm.frames.get? mm.next, { mm with next := mm.next + 1 })

/-- `map_to`: fails on an already-mapped page, otherwise records the
mapping. -/
def MemoryManager.map_to (mm : MemoryManager) (page frame : Nat) : Option MemoryManager :=
  if (mm.mappings.map Prod.fst).contains page then none
  else some { mm with mappings := (page, frame) :: mm.mappings }

/-- The `for i in 0..count` loop of `allocate_pages`: allocate a frame and
map it for each page; on failure the mutations so far persist but the call
reports failure. -/
def allocPagesLoop (page : Nat) : Nat → MemoryManager → Bool × MemoryManager
  | 0, mm => (true, mm)
  | n + 1, mm =>
    match mm.allocate_frame with
    | (none, mm1) => (false, mm1)
    | (some f, mm1) =>
      match mm1.map_to page f with
      | none => (false, mm1)
      | some mm2 => allocPagesLoop (page + 1) n mm2

/-- `allocate_pages(count)`: the returned base is always
`start_page.start_address()` for the page from `find_free_pages`. -/
def allocate_pages (mm : MemoryManager) (count : Nat) : Option Nat × MemoryManager :=
  match find_free_pages count with
  | none => (none, mm)
  | some start_page =>
    match allocPagesLoop start_page count mm with
    | (true, mm1) => (some (start_page * 4096), mm1)
    | (false, mm1) => (none, mm1)

/-- `sys_mmap`: rounds `length` up to pages, ignores every other argument,
returns the virtual base or −1. -/
def sys_mmap (mm : MemoryManager) (_addr : Nat) (length : Nat)
    (_prot _flags _fd _off : Int) : Int × MemoryManager :=
  let pages := (length + 4095) / 4096
  match allocate_pages mm pages with
  | (some virt, mm1) => ((virt : Int), mm1)
  | (none, mm1) => (-1, mm1)

/-- `sys_getpid`: the source returns the fixed value 1 and never consults
the process manager. -/
def sys_getpid (_m : ProcessManager) : Int := 1

/-! ## Keyboard driver (src/src/drivers/keyboard.rs) -/

def KEYBOARD_BUFFER_SIZE : Nat := 256

/-- The decoder state of `pc_keyboard` is irrelevant to buffering; the
driver state is the byte FIFO (front = head of the list). -/
structure KeyboardDriver where
  buffer : List Nat
deriving DecidableEq

/-- `add_byte`: drop the byte when the FIFO already holds 256 entries. -/
def KeyboardDriver.add_byte (k : KeyboardDriver) (b : Nat) : KeyboardDriver :=
  if k.buffer.length < KEYBOARD_BUFFER_SIZE then { k with buffer := k.buffer ++ [b] } else k

def KeyboardDriver.read_byte (k : KeyboardDriver) : Option Nat × KeyboardDriver :=
  match k.buffer with
  | [] => (none, k)
  | b :: rest => (some b, { k with buffer := rest })

/-- The `while count < buf.len()` drain loop of `read_bytes`. -/
def readLoop : Nat → KeyboardDriver → List Nat × KeyboardDriver
  | 0, k => ([], k)
  | n + 1, k =>
    match k.read_byte with
    | (none, k1) => ([], k1)
    | (some b, k1) =>
      let r := readLoop n k1
      (b :: r.1, r.2)

/-- `read_bytes(dst)` with `bufLen = dst.len()`: returns the bytes drained
into `dst` (their count is the Rust return value) and the new state. -/
def read_bytes (k : KeyboardDriver) (bufLen : Nat) : List Nat × KeyboardDriver :=
  readLoop bufLen k

/-- Keyboard states reachable from the empty FIFO by interrupt-driven
`add_byte` enqueues and `read_bytes` drains. -/
inductive KbdReachable : KeyboardDriver → Prop
  | start : KbdReachable { buffer := [] }
  | add {k : KeyboardDriver} (b : Nat) : KbdReachable k → KbdReachable (k.add_byte b)
  | drain {k : KeyboardDriver} (n : Nat) : KbdReachable k → KbdReachable (read_bytes k n).2

/-! ## Helper lemmas -/

/-- The data vector produced by a successful `write`: grow if needed, then
copy `buf` at `o`. -/
def writtenData (data : List Nat) (o : Nat) (buf : List Nat) : List Nat :=
  writeAt (if o + buf.length > data.length then resizeGrow data (o + buf.length) else data) o buf

theorem resizeGrow_length (d : List Nat) (n : Nat) :
    (resizeGrow d n).length = max d.length n := by
  simp [resizeGrow]
  omega

theorem writeAt_length (d : List Nat) (o : Nat) (b : List Nat)
    (h : o + b.length ≤ d.length) : (writeAt d o b).length = d.length := by
  simp [writeAt]
  omega

theorem writtenData_length (d : List Nat) (o : Nat) (b : List Nat) :
    (writtenData d o b).length = max d.length (o + b.length) := by
  unfold writtenData
  by_cases h : o + b.length > d.length
  · rw [if_pos h, writeAt_length _ _ _ (by rw [resizeGrow_length]; omega), resizeGrow_length]
  · rw [if_neg h, writeAt_length d o b (by omega)]
    omega

theorem writeAt_segment (d : List Nat) (o : Nat) (b : List Nat)
    (h : o ≤ d.length) : ((writeAt d o b).drop o).take b.length = b := by
  unfold writeAt
  rw [List.append_assoc, List.drop_left' (by simp; omega), List.take_left' rfl]

theorem writtenData_segment (d : List Nat) (o : Nat) (b : List Nat) :
    ((writtenData d o b).drop o).take b.length = b := by
  unfold writtenData
  by_cases h : o + b.length > d.length
  · rw [if_pos h, writeAt_segment]
    rw [resizeGrow_length]; omega
  · rw [if_neg h, writeAt_segment d o b (by omega)]

theorem writeAt_getD_front (d : List Nat) (o : Nat) (b : List Nat) (j : Nat)
    (hj : j < o) (hjd : j < d.length) : (writeAt d o b).getD j 0 = d.getD j 0 := by
  unfold writeAt
  rw [List.append_assoc, List.getD_append _ _ _ _ (by simp; omega)]
  rw [List.getD_eq_getElem _ _ (by simp; omega), List.getElem_take,
    List.getD_eq_getElem _ _ hjd]

theorem resizeGrow_getD_front (d : List Nat) (n : Nat) (j : Nat) (hjd : j < d.length) :
    (resizeGrow d n).getD j 0 = d.getD j 0 := by
  unfold resizeGrow
  rw [List.getD_append _ _ _ _ hjd]

theorem resizeGrow_getD_gap (d : List Nat) (n : Nat) (j : Nat)
    (h1 : d.length ≤ j) (h2 : j < n) : (resizeGrow d n).getD j 0 = 0 := by
  unfold resizeGrow
  rw [List.getD_append_right _ _ _ _ h1,
    List.getD_eq_getElem _ _ (by simp; omega), List.getElem_replicate]

/-- Bytes strictly before the write offset that existed before are unchanged. -/
theorem writtenData_getD_front (d : List Nat) (o : Nat) (b : List Nat) (j : Nat)
    (hj : j < o) (hjd : j < d.length) : (writtenData d o b).getD j 0 = d.getD j 0 := by
  unfold writtenData
  by_cases h : o + b.length > d.length
  · rw [if_pos h, writeAt_getD_front _ _ _ _ hj (by rw [resizeGrow_length]; omega),
      resizeGrow_getD_front _ _ _ hjd]
  · rw [if_neg h, writeAt_getD_front _ _ _ _ hj hjd]

/-- The gap between the old end of data and the write offset is zero-filled. -/
theorem writtenData_getD_gap (d : List Nat) (o : Nat) (b : List Nat) (j : Nat)
    (hj : j < o) (hjd : d.length ≤ j) : (writtenData d o b).getD j 0 = 0 := by
  unfold writtenData
  have h : o + b.length > d.length := by omega
  rw [if_pos h, writeAt_getD_front _ _ _ _ hj (by rw [resizeGrow_length]; omega),
    resizeGrow_getD_gap _ _ _ hjd (by omega)]

/-- Core evaluation lemma: a `write` that passes all checks and does not
exceed `MAX_FILE_SIZE` succeeds and produces exactly this state. -/
theorem write_ok (s : VirtualFileSystem) (fd : Int) (ofile : OpenFile) (inode : Inode)
    (buf : List Nat)
    (hfd0 : 0 ≤ fd) (hfd : fd.toNat < s.open_files.length)
    (hof : s.open_files.getD fd.toNat none = some ofile)
    (hin : s.inodes.getD ofile.inode none = some inode)
    (hw : inode.mode.write = true)
    (hsz : ¬(ofile.offset + buf.length > inode.data.length ∧
             ofile.offset + buf.length > MAX_FILE_SIZE)) :
    s.write fd buf = (.ok buf.length, { s with
      inodes := (s.inodes.set ofile.inode (some { inode with
        data := writtenData inode.data ofile.offset buf,
        size := max inode.size (ofile.offset + buf.length) })),
      open_files := (s.open_files.set fd.toNat
        (some { ofile with offset := ofile.offset + buf.length })) }) := by
  have h1 : ¬(fd < 0 ∨ s.open_files.length ≤ fd.toNat) := by
    push_neg
    exact ⟨by omega, by omega⟩
  simp only [VirtualFileSystem.write, h1, if_false, hof, hin, hw, writtenData]
  simp [hsz]

/-- Core evaluation lemma: a `read` that passes all checks succeeds, drains
the bytes between the offset and `min (offset + bufLen) data.length`, and
advances the offset there. -/
theorem read_ok (s : VirtualFileSystem) (fd : Int) (ofile : OpenFile) (inode : Inode)
    (bufLen : Nat)
    (hfd0 : 0 ≤ fd) (hfd : fd.toNat < s.open_files.length)
    (hof : s.open_files.getD fd.toNat none = some ofile)
    (hin : s.inodes.getD ofile.inode none = some inode)
    (hr : inode.mode.read = true) :
    s.read fd bufLen =
      (.ok ((inode.data.drop ofile.offset).take
          (min (ofile.offset + bufLen) inode.data.length - ofile.offset)),
       { s with open_files := (s.open_files.set fd.toNat
          (some { ofile with offset := min (ofile.offset + bufLen) inode.data.length })) }) := by
  have h1 : ¬(fd < 0 ∨ s.open_files.length ≤ fd.toNat) := by
    push_neg
    exact ⟨by omega, by omega⟩
  simp only [VirtualFileSystem.read, h1, if_false, hof, hin, hr]
  simp

/-- Core evaluation lemma: a `write` whose end would pass `MAX_FILE_SIZE`
is rejected before any state is touched. -/
theorem write_too_large (s : VirtualFileSystem) (fd : Int) (ofile : OpenFile) (inode : Inode)
    (buf : List Nat)
    (hfd0 : 0 ≤ fd) (hfd : fd.toNat < s.open_files.length)
    (hof : s.open_files.getD fd.toNat none = some ofile)
    (hin : s.inodes.getD ofile.inode none = some inode)
    (hw : inode.mode.write = true)
    (h1 : inode.data.length < ofile.offset + buf.length)
    (h2 : MAX_FILE_SIZE < ofile.offset + buf.length) :
    s.write fd buf = (.error "File too large", s) := by
  have hr : ¬(fd < 0 ∨ s.open_files.length ≤ fd.toNat) := by
    push_neg
    exact ⟨by omega, by omega⟩
  simp only [VirtualFileSystem.write, hr, if_false, hof, hin, hw]
  simp [h1, h2]

theorem getD_set_self {α : Type} (l : List (Option α)) (i : Nat) (a : Option α)
    (h : i < l.length) : (l.set i a).getD i none = a := by
  rw [List.getD_eq_getElem _ _ (by simp [List.length_set]; omega)]
  exact List.getElem_set_self _

theorem getD_some_lt_length {α : Type} (l : List (Option α)) (i : Nat) (a : α)
    (h : l.getD i none = some a) : i < l.length := by
  by_contra hc
  rw [List.getD_eq_default _ _ (by omega)] at h
  cases h

theorem getD_set_ne {α : Type} (l : List (Option α)) (i j : Nat) (a : Option α)
    (h : i ≠ j) : (l.set i a).getD j none = l.getD j none := by
  by_cases hj : j < l.length
  · rw [List.getD_eq_getElem _ _ (by simp [List.length_set]; omega),
      List.getElem_set, if_neg h, List.getD_eq_getElem _ _ hj]
  · rw [List.getD_eq_default _ _ (by simp [List.length_set]; omega),
      List.getD_eq_default _ _ (by omega)]

theorem mapGet_mapInsert_self (m : List (List Char × Nat)) (k : List Char) (v : Nat) :
    mapGet (mapInsert m k v) k = some v := by
  induction m with
  | nil => simp [mapInsert, mapGet]
  | cons kv rest ih =>
    obtain ⟨k1, v1⟩ := kv
    by_cases h : k = k1
    · simp [mapInsert, mapGet, h]
    · simp [mapInsert, mapGet, h, ih]

theorem readLoop_eq (n : Nat) (k : KeyboardDriver) :
    readLoop n k = (k.buffer.take n, { buffer := k.buffer.drop n }) := by
  induction n generalizing k with
  | zero => simp [readLoop]
  | succ n ih =>
    obtain ⟨buf⟩ := k
    cases buf with
    | nil => simp [readLoop, KeyboardDriver.read_byte]
    | cons b rest => simp [readLoop, KeyboardDriver.read_byte, ih]

/-! ## Claim C9: keyboard FIFO delivery -/

/-- C9: `read_bytes(dst)` removes `min (|dst|) (buffered count)` bytes from
the front of the keyboard buffer in enqueue (FIFO) order and returns that
count, zero included; `add_byte` drops bytes arriving while the buffer holds
256 entries, and every state reachable from the empty buffer by enqueues and
drains holds at most 256 bytes. -/
theorem keyboard_fifo_delivery :
    (∀ (k : KeyboardDriver) (n : Nat),
        (read_bytes k n).1 = k.buffer.take n ∧
        (read_bytes k n).2.buffer = k.buffer.drop n ∧
        (read_bytes k n).1.length = min n k.buffer.length) ∧
    (∀ (k : KeyboardDriver) (b : Nat),
        k.buffer.length = KEYBOARD_BUFFER_SIZE → k.add_byte b = k) ∧
    (∀ k : KeyboardDriver, KbdReachable k → k.buffer.length ≤ KEYBOARD_BUFFER_SIZE) := by
  refine ⟨?_, ?_, ?_⟩
  · intro k n
    rw [read_bytes, readLoop_eq]
    exact ⟨rfl, rfl, by simp [List.length_take]⟩
  · intro k b h
    simp [KeyboardDriver.add_byte, h]
  · intro k h
    induction h with
    | start => simp
    | add b _ ih =>
      unfold KeyboardDriver.add_byte
      split
      · simp only [List.length_append, List.length_cons, List.length_nil]
        omega
      · exact ih
    | drain n _ ih =>
      rw [read_bytes, readLoop_eq]
      simp only [List.length_drop]
      omega

/-- Witness for C9 at concrete inputs. -/
theorem keyboard_fifo_delivery_witness :
    (read_bytes { buffer := [7, 8, 9] } 2).1 = [7, 8] ∧
    ({ buffer := [] } : KeyboardDriver).buffer.length ≤ KEYBOARD_BUFFER_SIZE := by
  constructor
  · rw [(keyboard_fifo_delivery.1 { buffer := [7, 8, 9] } 2).1]
    decide
  · exact keyboard_fifo_delivery.2.2 _ KbdReachable.start

/-! ## Claim C6: mmap returns a fixed base -/

theorem sys_mmap_base_aux (mm : MemoryManager) (addr length : Nat)
    (prot flags fd off : Int)
    (h : (sys_mmap mm addr length prot flags fd off).1 ≠ -1) :
    (sys_mmap mm addr length prot flags fd off).1 = (USER_SPACE_START : Int) := by
  unfold sys_mmap allocate_pages find_free_pages at h ⊢
  rcases hE : allocPagesLoop (USER_SPACE_START / 4096) ((length + 4095) / 4096) mm with ⟨b, mm1⟩
  simp only [] at h ⊢
  rw [hE] at h ⊢
  cases b
  · simp at h
  · norm_num [USER_SPACE_START]

/-- C6: every successful `sys_mmap` (syscall 9) returns the fixed virtual
base `0x0000_4000_0000_0000`, whatever the `addr`, `len`, `prot`, `flags`,
`fd` and `off` arguments are; consequently two successive successful calls
return the same (aliasing) base. -/
theorem sys_mmap_fixed_base :
    (∀ (mm : MemoryManager) (addr length : Nat) (prot flags fd off : Int),
        (sys_mmap mm addr length prot flags fd off).1 ≠ -1 →
        (sys_mmap mm addr length prot flags fd off).1 = (USER_SPACE_START : Int)) ∧
    (∀ (mm : MemoryManager) (a1 l1 : Nat) (p1 f1 d1 o1 : Int)
        (a2 l2 : Nat) (p2 f2 d2 o2 : Int),
        (sys_mmap mm a1 l1 p1 f1 d1 o1).1 ≠ -1 →
        (sys_mmap (sys_mmap mm a1 l1 p1 f1 d1 o1).2 a2 l2 p2 f2 d2 o2).1 ≠ -1 →
        (sys_mmap mm a1 l1 p1 f1 d1 o1).1 =
          (sys_mmap (sys_mmap mm a1 l1 p1 f1 d1 o1).2 a2 l2 p2 f2 d2 o2).1) := by
  refine ⟨sys_mmap_base_aux, ?_⟩
  intro mm a1 l1 p1 f1 d1 o1 a2 l2 p2 f2 d2 o2 h1 h2
  rw [sys_mmap_base_aux _ _ _ _ _ _ _ h1, sys_mmap_base_aux _ _ _ _ _ _ _ h2]

/-- Witness for C6: a one-frame allocator succeeds, and two zero-length
calls both succeed with the same base. -/
theorem sys_mmap_fixed_base_witness :
    (sys_mmap { frames := [4096], next := 0, mappings := [] } 0 4096 0 0 0 0).1 =
      (USER_SPACE_START : Int) ∧
    (sys_mmap { frames := [], next := 0, mappings := [] } 9 0 1 2 3 4).1 =
      (sys_mmap (sys_mmap { frames := [], next := 0, mappings := [] } 9 0 1 2 3 4).2
        7 0 5 6 7 8).1 := by
  constructor
  · exact sys_mmap_fixed_base.1 { frames := [4096], next := 0, mappings := [] }
      0 4096 0 0 0 0 (by decide)
  · exact sys_mmap_fixed_base.2 { frames := [], next := 0, mappings := [] }
      9 0 1 2 3 4 7 0 5 6 7 8 (by decide) (by decide)

/-! ## Claim C7: getpid -/

/-- C7 counterexample: in the reachable state `pmDemo` the current process
has pid 2, yet `sys_getpid` (the handler dispatched for syscall 39) returns
1, so syscall 39 does not return the current pid. -/
theorem sys_getpid_not_current_pid :
    ProcReachable pmDemo ∧
    ∃ p : Process, pmDemo.manager.get_current_process = some p ∧ p.pid = 2 ∧
      sys_getpid pmDemo.manager ≠ (p.pid : Int) := by
  constructor
  · exact ProcReachable.step
      (ProcReachable.step
        (ProcReachable.step
          (ProcReachable.step ProcReachable.start (ProcStep.add _))
          (ProcStep.add _))
        (ProcStep.sched _))
      (ProcStep.sched _)
  · exact ⟨{ pid := 2, state := ProcessState.Running, priority := 10, time_slice := 10 },
      by decide, rfl, by decide⟩

/-- C7 amended: `sys_getpid` always returns the constant 1, regardless of
the process-manager state (the source comments this as a simplification). -/
theorem sys_getpid_returns_one (m : ProcessManager) : sys_getpid m = 1 := rfl

/-! ## Claim C4: close twice -/

/-- C4 counterexample: on the seeded filesystem with `/hello.txt` opened at
descriptor 0, the first `close(0)` returns 0 and the second `close(0)` also
returns 0 — not −1 as the claim states. -/
theorem close_close_counterexample :
    (closeSys (fsInit.openFile "/hello.txt" 0).2 0).1 = 0 ∧
    (closeSys (closeSys (fsInit.openFile "/hello.txt" 0).2 0).2 0).1 = 0 ∧
    ((0 : Int) ≠ -1) := by
  refine ⟨by decide, by decide, by decide⟩

/-- C4 amended: for every in-range descriptor the first `close` returns 0
and clears the slot, and an immediately repeated `close` again returns 0;
`close` returns −1 exactly for out-of-range descriptors. -/
theorem close_idempotent_in_range (s : VirtualFileSystem) (fd : Int)
    (h0 : 0 ≤ fd) (h1 : fd.toNat < s.open_files.length) :
    (closeSys s fd).1 = 0 ∧
    (closeSys s fd).2.open_files.getD fd.toNat none = none ∧
    (closeSys (closeSys s fd).2 fd).1 = 0 ∧
    (∀ (t : VirtualFileSystem) (g : Int), (g < 0 ∨ t.open_files.length ≤ g.toNat) →
        (closeSys t g).1 = -1) := by
  have hc : ¬(fd < 0 ∨ s.open_files.length ≤ fd.toNat) := by
    push_neg
    exact ⟨by omega, by omega⟩
  have e1 : closeSys s fd = (0, { s with open_files := (s.open_files.set fd.toNat none) }) := by
    simp [closeSys, VirtualFileSystem.close, hc]
  refine ⟨by rw [e1], ?_, ?_, ?_⟩
  · rw [e1]
    exact getD_set_self _ _ _ h1
  · rw [e1]
    simp [closeSys, VirtualFileSystem.close, hc]
  · intro t g hg
    simp [closeSys, VirtualFileSystem.close, hg]

/-- Witness for C4's amended statement on the seeded filesystem. -/
theorem close_idempotent_in_range_witness :
    (closeSys (fsInit.openFile "/hello.txt" 0).2 0).2.open_files.getD 0 none = none :=
  (close_idempotent_in_range (fsInit.openFile "/hello.txt" 0).2 0
    (by decide) (by decide)).2.1

/-! ## Claim C5: mkdir on an existing name -/

/-- C5 counterexample: in the seeded filesystem the root already has a child
`tmp` (inode 2), yet `mkdir("/tmp")` succeeds with a fresh inode 5, bumps the
inode counter, and redirects the root's `tmp` entry to 5 — it neither errors
nor leaves the state unchanged. -/
theorem mkdir_existing_counterexample :
    ((fsInit.inodes.getD 0 none).map (fun i => mapGet i.children "tmp".toList)) =
      some (some 2) ∧
    (fsInit.mkdir "/tmp" { read := true, write := true, execute := true }).1 =
      Except.ok 5 ∧
    (fsInit.mkdir "/tmp" { read := true, write := true, execute := true }).2.next_inode =
      fsInit.next_inode + 1 ∧
    (((fsInit.mkdir "/tmp" { read := true, write := true, execute := true }).2.inodes.getD
        0 none).map (fun i => mapGet i.children "tmp".toList)) = some (some 5) := by
  refine ⟨by decide, by decide, by decide, by decide⟩

/-- C5 amended: when the final path component already exists in the resolved
parent directory, `mkdir` does not reject: it still allocates the next inode,
stores a fresh empty directory there, replaces the parent's child entry with
the new inode number (orphaning the old inode), and bumps the inode
counter. -/
theorem mkdir_overwrites_existing (vfs : VirtualFileSystem) (path : String)
    (mode : FileMode) (parent old : Nat) (pInode : Inode)
    (hne : ¬(pathParts path = []))
    (htr : vfs.traverse (pathParts path).dropLast vfs.root_inode = .ok parent)
    (halloc : vfs.next_inode < vfs.inodes.length)
    (hpar : vfs.inodes.getD parent none = some pInode)
    (hpne : parent ≠ vfs.next_inode)
    (hold : mapGet pInode.children ((pathParts path).getLastD []) = some old) :
    ∃ v, vfs.mkdir path mode = (.ok vfs.next_inode, v) ∧
      v.next_inode = vfs.next_inode + 1 ∧
      (∃ pInode2, v.inodes.getD parent none = some pInode2 ∧
        mapGet pInode2.children ((pathParts path).getLastD []) =
          some vfs.next_inode) ∧
      v.inodes.getD vfs.next_inode none =
        some (Inode.new_dir vfs.next_inode mode) := by
  have hparlt : parent < vfs.inodes.length := getD_some_lt_length _ _ _ hpar
  unfold VirtualFileSystem.mkdir VirtualFileSystem.allocate_inode
  simp only []
  rw [if_neg hne, htr]
  simp only []
  rw [if_neg (by omega)]
  simp only []
  rw [getD_set_ne _ _ _ _ (Ne.symm hpne), hpar]
  simp only []
  refine ⟨_, rfl, rfl, ⟨_, getD_set_self _ _ _ (by rw [List.length_set]; omega), ?_⟩, ?_⟩
  · exact mapGet_mapInsert_self _ _ _
  · rw [getD_set_ne _ _ _ _ hpne, getD_set_self _ _ _ halloc]

/-- Witness for C5's amended statement: `mkdir("/tmp")` on the seeded
filesystem where `tmp` already maps to inode 2. -/
theorem mkdir_overwrites_existing_witness :
    ∃ v, fsInit.mkdir "/tmp" { read := true, write := true, execute := true } =
        (.ok 5, v) ∧ v.next_inode = 6 := by
  obtain ⟨v, h1, h2, _, _⟩ := mkdir_overwrites_existing fsInit "/tmp"
    { read := true, write := true, execute := true } 0 2
    { inode_num := 0, file_type := FileType.Directory,
      mode := { read := true, write := true, execute := true }, size := 0, data := [],
      children := [("dev".toList, 1), ("tmp".toList, 2), ("home".toList, 3),
                   ("hello.txt".toList, 4)] }
    (by decide) (by decide) (by decide) (by decide) (by decide) (by decide)
  have e5 : fsInit.next_inode = 5 := by decide
  rw [e5] at h1 h2
  exact ⟨v, h1, h2⟩

/-! ## Claim C10: open ignores flags and permission bits -/

theorem open_ok (vfs : VirtualFileSystem) (path : String) (flags : Int) (i fd : Nat)
    (htr : vfs.traverse (pathParts path) vfs.root_inode = .ok i)
    (hslot : findFreeSlot vfs.open_files 0 = some fd) :
    vfs.openFile path flags = (.ok (fd : Int),
      { vfs with open_files := (vfs.open_files.set fd
          (some { inode := i, offset := 0, flags := flags })) }) := by
  unfold VirtualFileSystem.openFile
  simp only []
  rw [htr]
  simp only []
  rw [hslot]

theorem read_permission_denied (s : VirtualFileSystem) (fd : Int) (ofile : OpenFile)
    (inode : Inode) (bufLen : Nat)
    (hfd0 : 0 ≤ fd) (hfd : fd.toNat < s.open_files.length)
    (hof : s.open_files.getD fd.toNat none = some ofile)
    (hin : s.inodes.getD ofile.inode none = some inode)
    (hr : inode.mode.read = false) :
    s.read fd bufLen = (.error "Permission denied", s) := by
  have h1 : ¬(fd < 0 ∨ s.open_files.length ≤ fd.toNat) := by
    push_neg
    exact ⟨by omega, by omega⟩
  simp only [VirtualFileSystem.read, h1, if_false, hof, hin, hr]
  simp

theorem write_permission_denied (s : VirtualFileSystem) (fd : Int) (ofile : OpenFile)
    (inode : Inode) (buf : List Nat)
    (hfd0 : 0 ≤ fd) (hfd : fd.toNat < s.open_files.length)
    (hof : s.open_files.getD fd.toNat none = some ofile)
    (hin : s.inodes.getD ofile.inode none = some inode)
    (hw : inode.mode.write = false) :
    s.write fd buf = (.error "Permission denied", s) := by
  have h1 : ¬(fd < 0 ∨ s.open_files.length ≤ fd.toNat) := by
    push_neg
    exact ⟨by omega, by omega⟩
  simp only [VirtualFileSystem.write, h1, if_false, hof, hin, hw]
  simp

/-- C10: `open` never consults its `flags` argument or the inode's
permission bits — whenever the path resolves and a descriptor slot is free,
`open` succeeds with the same descriptor for every `flags` value, storing
`(inode, offset 0, flags)`; the permission bits are enforced only later:
`read` fails with `Permission denied` when the read bit is clear, and
`write` fails likewise when the write bit is clear. -/
theorem open_ignores_flags_and_mode :
    (∀ (vfs : VirtualFileSystem) (path : String) (i fd : Nat),
        vfs.traverse (pathParts path) vfs.root_inode = .ok i →
        findFreeSlot vfs.open_files 0 = some fd →
        ∀ flags : Int, vfs.openFile path flags = (.ok (fd : Int),
          { vfs with open_files := (vfs.open_files.set fd
              (some { inode := i, offset := 0, flags := flags })) })) ∧
    (∀ (s : VirtualFileSystem) (fd : Int) (ofile : OpenFile) (inode : Inode)
        (bufLen : Nat), 0 ≤ fd → fd.toNat < s.open_files.length →
        s.open_files.getD fd.toNat none = some ofile →
        s.inodes.getD ofile.inode none = some inode →
        inode.mode.read = false →
        s.read fd bufLen = (.error "Permission denied", s)) ∧
    (∀ (s : VirtualFileSystem) (fd : Int) (ofile : OpenFile) (inode : Inode)
        (buf : List Nat), 0 ≤ fd → fd.toNat < s.open_files.length →
        s.open_files.getD fd.toNat none = some ofile →
        s.inodes.getD ofile.inode none = some inode →
        inode.mode.write = false →
        s.write fd buf = (.error "Permission denied", s)) := by
  refine ⟨?_, ?_, ?_⟩
  · intro vfs path i fd htr hslot flags
    exact open_ok vfs path flags i fd htr hslot
  · intro s fd ofile inode bufLen h1 h2 h3 h4 h5
    exact read_permission_denied s fd ofile inode bufLen h1 h2 h3 h4 h5
  · intro s fd ofile inode buf h1 h2 h3 h4 h5
    exact write_permission_denied s fd ofile inode buf h1 h2 h3 h4 h5

/-- Witness for C10: a file `/secret` with no permission bits still opens
(with arbitrary flags 123), and reading or writing it is denied. -/
theorem open_ignores_flags_and_mode_witness :
    ((fsInit.create "/secret"
        { read := false, write := false, execute := false }).2.openFile
          "/secret" 123).1 = .ok 0 ∧
    (((fsInit.create "/secret"
        { read := false, write := false, execute := false }).2.openFile
          "/secret" 123).2.read 0 5).1 = .error "Permission denied" ∧
    (((fsInit.create "/secret"
        { read := false, write := false, execute := false }).2.openFile
          "/secret" 123).2.write 0 [1]).1 = .error "Permission denied" := by
  refine ⟨?_, ?_, ?_⟩
  · rw [open_ignores_flags_and_mode.1 _ "/secret" 5 0 (by decide) (by decide) 123]
    rfl
  · rw [open_ignores_flags_and_mode.2.1 _ 0 { inode := 5, offset := 0, flags := 123 }
      (Inode.new_file 5 { read := false, write := false, execute := false }) 5
      (by decide) (by decide) (by decide) (by decide) (by decide)]
  · rw [open_ignores_flags_and_mode.2.2 _ 0 { inode := 5, offset := 0, flags := 123 }
      (Inode.new_file 5 { read := false, write := false, execute := false }) [1]
      (by decide) (by decide) (by decide) (by decide) (by decide)]

/-! ## Claim C2: the write contract -/

/-- C2: on a descriptor whose inode has the write bit set (and whose data
respects the 1 MiB invariant), `write(fd, buf)` succeeds exactly when
`offset + |buf|` is at most 1 MiB.  On success it returns `|buf|`, advances
the descriptor offset by `|buf|`, grows the data vector to
`max (old length) (offset + |buf|)` zero-filling the gap while preserving
the old bytes before the offset, writes `buf` at the offset, and sets
`size = max (size) (offset + |buf|)`.  On the too-large rejection it returns
the error with the filesystem state literally unchanged. -/
theorem vfs_write_contract (s : VirtualFileSystem) (fd : Int) (ofile : OpenFile)
    (inode : Inode) (buf : List Nat)
    (hfd0 : 0 ≤ fd) (hfd : fd.toNat < s.open_files.length)
    (hof : s.open_files.getD fd.toNat none = some ofile)
    (hin : s.inodes.getD ofile.inode none = some inode)
    (hw : inode.mode.write = true)
    (hinv : inode.data.length ≤ MAX_FILE_SIZE) :
    (ofile.offset + buf.length ≤ MAX_FILE_SIZE →
      ∃ s' inode',
        s.write fd buf = (.ok buf.length, s') ∧
        s'.open_files.getD fd.toNat none =
          some { ofile with offset := ofile.offset + buf.length } ∧
        s'.inodes.getD ofile.inode none = some inode' ∧
        inode'.size = max inode.size (ofile.offset + buf.length) ∧
        inode'.data.length = max inode.data.length (ofile.offset + buf.length) ∧
        (inode'.data.drop ofile.offset).take buf.length = buf ∧
        (∀ j, j < ofile.offset → j < inode.data.length →
            inode'.data.getD j 0 = inode.data.getD j 0) ∧
        (∀ j, j < ofile.offset → inode.data.length ≤ j → inode'.data.getD j 0 = 0)) ∧
    (MAX_FILE_SIZE < ofile.offset + buf.length →
      s.write fd buf = (.error "File too large", s)) := by
  constructor
  · intro hle
    have hok := write_ok s fd ofile inode buf hfd0 hfd hof hin hw (by omega)
    have hi : ofile.inode < s.inodes.length := getD_some_lt_length _ _ _ hin
    refine ⟨_, { inode with data := writtenData inode.data ofile.offset buf,
                            size := max inode.size (ofile.offset + buf.length) },
      hok, ?_, ?_, rfl, writtenData_length _ _ _, writtenData_segment _ _ _,
      fun j hj hjd => writtenData_getD_front _ _ _ _ hj hjd,
      fun j hj hjd => writtenData_getD_gap _ _ _ _ hj hjd⟩
    · exact getD_set_self _ _ _ hfd
    · exact getD_set_self _ _ _ hi
  · intro hgt
    exact write_too_large s fd ofile inode buf hfd0 hfd hof hin hw (by omega) hgt

/-- Witness for C2 on the demonstration state (descriptor 0 on the empty
`/hello.txt`, writing three bytes; the rejection branch with a 2 MiB
offsetless write is exercised through `MAX_FILE_SIZE < |buf|` being false
here, so the success branch applies). -/
theorem vfs_write_contract_witness :
    ∃ s' inode',
      vfsDemo.write 0 [10, 20, 30] = (.ok 3, s') ∧
      s'.open_files.getD 0 none = some { inode := 4, offset := 3, flags := 0 } ∧
      s'.inodes.getD 4 none = some inode' ∧
      inode'.size = 3 ∧
      inode'.data.length = 3 ∧
      (inode'.data.drop 0).take 3 = [10, 20, 30] := by
  have h := (vfs_write_contract vfsDemo 0 { inode := 4, offset := 0, flags := 0 }
    { inode_num := 4, file_type := FileType.Regular,
      mode := { read := true, write := true, execute := false },
      size := 0, data := [], children := [] } [10, 20, 30]
    (by decide) (by decide) (by decide) (by decide) (by decide) (by decide)).1 (by decide)
  obtain ⟨s', inode', h1, h2, h3, h4, h5, h6, _, _⟩ := h
  exact ⟨s', inode', h1, h2, h3, h4, h5, h6⟩

/-! ## Claim C1: VFS write/read round-trip -/

/-- C1: for a regular file open at descriptor `fd` with the write bit, any
offset and any byte list `B` with `offset + |B|` within the 1 MiB limit,
`write(fd, B)` succeeds; afterwards the inode's bytes at
`[offset, offset + |B|)` are exactly `B` and its size is at least
`offset + |B|`; and reading `|B|` bytes through any descriptor of the
post-write state positioned at the same offset on the same (readable) inode
returns exactly `B`. -/
theorem vfs_write_read_roundtrip (s : VirtualFileSystem) (fd : Int) (ofile : OpenFile)
    (inode : Inode) (B : List Nat)
    (hfd0 : 0 ≤ fd) (hfd : fd.toNat < s.open_files.length)
    (hof : s.open_files.getD fd.toNat none = some ofile)
    (hin : s.inodes.getD ofile.inode none = some inode)
    (hreg : inode.file_type = FileType.Regular)
    (hw : inode.mode.write = true)
    (hmax : ofile.offset + B.length ≤ MAX_FILE_SIZE) :
    ∃ s' inode',
      s.write fd B = (.ok B.length, s') ∧
      s'.inodes.getD ofile.inode none = some inode' ∧
      (inode'.data.drop ofile.offset).take B.length = B ∧
      ofile.offset + B.length ≤ inode'.size ∧
      (∀ (fd' : Int) (ofile' : OpenFile), 0 ≤ fd' → fd'.toNat < s'.open_files.length →
        s'.open_files.getD fd'.toNat none = some ofile' →
        ofile'.inode = ofile.inode → ofile'.offset = ofile.offset →
        inode.mode.read = true →
        (s'.read fd' B.length).1 = .ok B) := by
  have hok := write_ok s fd ofile inode B hfd0 hfd hof hin hw (by omega)
  have hi : ofile.inode < s.inodes.length := getD_some_lt_length _ _ _ hin
  refine ⟨_, _, hok, getD_set_self _ _ _ hi, writtenData_segment _ _ _, ?_, ?_⟩
  · simp only []
    omega
  · intro fd' ofile' hfd0' hfd' hof' hinode' hoff' hr
    have hin' := getD_set_self s.inodes ofile.inode
      (some { inode with data := writtenData inode.data ofile.offset B,
                         size := max inode.size (ofile.offset + B.length) }) hi
    have hread := read_ok _ fd' ofile'
      { inode with data := writtenData inode.data ofile.offset B,
                   size := max inode.size (ofile.offset + B.length) } B.length
      hfd0' hfd' hof' (by rw [hinode']; exact hin') hr
    rw [hread]
    simp only []
    rw [hoff']
    have hmin : min (ofile.offset + B.length)
        (writtenData inode.data ofile.offset B).length = ofile.offset + B.length := by
      rw [writtenData_length]
      omega
    rw [hmin, Nat.add_sub_cancel_left, writtenData_segment]

/-- Witness for C1: writing `[1, 2]` through descriptor 0 of the
demonstration state and reading through the fresh descriptor 1. -/
theorem vfs_write_read_roundtrip_witness :
    ∃ s' inode',
      vfsDemo.write 0 [1, 2] = (.ok 2, s') ∧
      s'.inodes.getD 4 none = some inode' ∧
      (inode'.data.drop 0).take 2 = [1, 2] ∧
      2 ≤ inode'.size ∧
      (∀ (fd' : Int) (ofile' : OpenFile), 0 ≤ fd' → fd'.toNat < s'.open_files.length →
        s'.open_files.getD fd'.toNat none = some ofile' →
        ofile'.inode = 4 → ofile'.offset = 0 →
        ({ read := true, write := true, execute := false } : FileMode).read = true →
        (s'.read fd' 2).1 = .ok [1, 2]) :=
  vfs_write_read_roundtrip vfsDemo 0 { inode := 4, offset := 0, flags := 0 }
    { inode_num := 4, file_type := FileType.Regular,
      mode := { read := true, write := true, execute := false },
      size := 0, data := [], children := [] } [1, 2]
    (by decide) (by decide) (by decide) (by decide) (by decide) (by decide) (by decide)

/-! ## Claims C3 and C8: scheduler lemmas -/

theorem findFirst_cons (a : Process) (tl : List Process) (pid : Nat) :
    findFirst (a :: tl) pid = if a.pid = pid then some a else findFirst tl pid := rfl

theorem modifyFirst_cons (a : Process) (tl : List Process) (pid : Nat)
    (f : Process → Process) :
    modifyFirst (a :: tl) pid f =
      if a.pid = pid then f a :: tl else a :: modifyFirst tl pid f := rfl

theorem selectNext_cons (ps : List Process) (a : Nat) (rest : List Nat) :
    selectNext ps (a :: rest) =
      match findFirst ps a with
      | some p =>
        if p.state = ProcessState.Ready then
          some (a, modifyFirst ps a (fun q => { q with state := ProcessState.Running }), rest)
        else selectNext ps rest
      | none => selectNext ps rest := rfl

theorem findFirst_some {ps : List Process} {pid : Nat} {p : Process}
    (h : findFirst ps pid = some p) : p ∈ ps ∧ p.pid = pid := by
  induction ps with
  | nil => cases h
  | cons a tl ih =>
    rw [findFirst] at h
    by_cases ha : a.pid = pid
    · rw [if_pos ha] at h
      cases h
      exact ⟨List.mem_cons_self _ _, ha⟩
    · rw [if_neg ha] at h
      obtain ⟨h1, h2⟩ := ih h
      exact ⟨List.mem_cons_of_mem _ h1, h2⟩

theorem findFirst_of_mem {ps : List Process} {p : Process}
    (hnd : (ps.map Process.pid).Nodup) (hp : p ∈ ps) :
    findFirst ps p.pid = some p := by
  induction ps with
  | nil => cases hp
  | cons a tl ih =>
    rw [List.map_cons, List.nodup_cons] at hnd
    rcases List.mem_cons.mp hp with h | h
    · subst h
      rw [findFirst, if_pos rfl]
    · have ha : a.pid ≠ p.pid := by
        intro he
        exact hnd.1 (he ▸ List.mem_map_of_mem Process.pid h)
      rw [findFirst, if_neg ha]
      exact ih hnd.2 h

theorem modifyFirst_map_pid (ps : List Process) (pid : Nat) (f : Process → Process)
    (hf : ∀ x, (f x).pid = x.pid) :
    (modifyFirst ps pid f).map Process.pid = ps.map Process.pid := by
  induction ps with
  | nil => rfl
  | cons a tl ih =>
    rw [modifyFirst]
    by_cases ha : a.pid = pid
    · rw [if_pos ha]
      simp [hf]
    · rw [if_neg ha]
      simp [ih]

theorem mem_modifyFirst_nodup {ps : List Process} {pid : Nat} {f : Process → Process}
    {x : Process} (hnd : (ps.map Process.pid).Nodup)
    (hx : x ∈ modifyFirst ps pid f) :
    (x ∈ ps ∧ x.pid ≠ pid) ∨ (∃ p, findFirst ps pid = some p ∧ x = f p) := by
  induction ps with
  | nil => cases hx
  | cons a tl ih =>
    rw [List.map_cons, List.nodup_cons] at hnd
    rw [modifyFirst] at hx
    by_cases ha : a.pid = pid
    · rw [if_pos ha] at hx
      rcases List.mem_cons.mp hx with h | h
      · right
        exact ⟨a, by rw [findFirst_cons, if_pos ha], h⟩
      · left
        have hmem : x.pid ∈ tl.map Process.pid := List.mem_map_of_mem Process.pid h
        refine ⟨List.mem_cons_of_mem _ h, fun he => hnd.1 ?_⟩
        rw [← ha] at he
        exact he ▸ hmem
    · rw [if_neg ha] at hx
      rcases List.mem_cons.mp hx with h | h
      · subst h
        exact Or.inl ⟨List.mem_cons_self _ _, ha⟩
      · rcases ih hnd.2 h with ⟨k1, k2⟩ | ⟨p, k1, k2⟩
        · exact Or.inl ⟨List.mem_cons_of_mem _ k1, k2⟩
        · right
          refine ⟨p, ?_, k2⟩
          rw [findFirst_cons, if_neg ha]
          exact k1

theorem mem_modifyFirst_of_ne {ps : List Process} {pid : Nat} {f : Process → Process}
    {x : Process} (hx : x ∈ ps) (hne : x.pid ≠ pid) : x ∈ modifyFirst ps pid f := by
  induction ps with
  | nil => cases hx
  | cons a tl ih =>
    rw [modifyFirst]
    by_cases ha : a.pid = pid
    · rw [if_pos ha]
      rcases List.mem_cons.mp hx with h | h
      · subst h
        exact absurd ha hne
      · exact List.mem_cons_of_mem _ h
    · rw [if_neg ha]
      rcases List.mem_cons.mp hx with h | h
      · subst h
        exact List.mem_cons_self _ _
      · exact List.mem_cons_of_mem _ (ih h)

theorem modified_mem_modifyFirst {ps : List Process} {pid : Nat} {p : Process}
    (f : Process → Process) (h : findFirst ps pid = some p) :
    f p ∈ modifyFirst ps pid f := by
  induction ps with
  | nil => cases h
  | cons a tl ih =>
    rw [findFirst] at h
    rw [modifyFirst]
    by_cases ha : a.pid = pid
    · rw [if_pos ha] at h
      cases h
      rw [if_pos ha]
      exact List.mem_cons_self _ _
    · rw [if_neg ha] at h
      rw [if_neg ha]
      exact List.mem_cons_of_mem _ (ih h)

theorem findFirst_modifyFirst_self {ps : List Process} {pid : Nat} {p : Process}
    {f : Process → Process} (hf : ∀ x, (f x).pid = x.pid)
    (h : findFirst ps pid = some p) :
    findFirst (modifyFirst ps pid f) pid = some (f p) := by
  induction ps with
  | nil => cases h
  | cons a tl ih =>
    rw [findFirst_cons] at h
    rw [modifyFirst_cons]
    by_cases ha : a.pid = pid
    · rw [if_pos ha] at h
      cases h
      rw [if_pos ha, findFirst_cons, if_pos (by rw [hf]; exact ha)]
    · rw [if_neg ha] at h
      rw [if_neg ha, findFirst_cons, if_neg ha]
      exact ih h

theorem pids_lt_of_map_eq {ps2 ps : List Process} {c : Nat}
    (hmap : ps2.map Process.pid = ps.map Process.pid)
    (h : ∀ p ∈ ps, p.pid < c) : ∀ p ∈ ps2, p.pid < c := by
  intro p hp
  have : p.pid ∈ ps.map Process.pid := by
    rw [← hmap]
    exact List.mem_map_of_mem Process.pid hp
  obtain ⟨y, hy, hyp⟩ := List.mem_map.mp this
  rw [← hyp]
  exact h y hy

theorem selectNext_none_spec {ps : List Process} :
    ∀ {q : List Nat}, selectNext ps q = none →
      ∀ e ∈ q, ∀ r, findFirst ps e = some r → r.state ≠ ProcessState.Ready := by
  intro q
  induction q with
  | nil =>
    intro _ e he
    cases he
  | cons a rest ih =>
    intro h e he r hr
    rw [selectNext] at h
    rcases List.mem_cons.mp he with h1 | h1
    · subst h1
      rw [hr] at h
      simp only [] at h
      by_cases hrs : r.state = ProcessState.Ready
      · rw [if_pos hrs] at h
        cases h
      · exact hrs
    · cases hfa : findFirst ps a with
      | some pa =>
        rw [hfa] at h
        simp only [] at h
        by_cases hpa : pa.state = ProcessState.Ready
        · rw [if_pos hpa] at h
          cases h
        · rw [if_neg hpa] at h
          exact ih h e h1 r hr
      | none =>
        rw [hfa] at h
        simp only [] at h
        exact ih h e h1 r hr

theorem selectNext_some_spec {ps : List Process} :
    ∀ {q : List Nat} {pid : Nat} {ps2 : List Process} {rest : List Nat},
      selectNext ps q = some (pid, ps2, rest) →
      (∃ p, findFirst ps pid = some p ∧ p.state = ProcessState.Ready ∧
        ps2 = modifyFirst ps pid (fun x => { x with state := ProcessState.Running })) ∧
      (∀ e ∈ rest, e ∈ q) ∧
      (∀ e ∈ q, e = pid ∨ e ∈ rest ∨
        ∀ r, findFirst ps e = some r → r.state ≠ ProcessState.Ready) := by
  intro q
  induction q with
  | nil =>
    intro pid ps2 rest h
    cases h
  | cons a tl ih =>
    intro pid ps2 rest h
    rw [selectNext] at h
    cases hfa : findFirst ps a with
    | some pa =>
      rw [hfa] at h
      simp only [] at h
      by_cases hpa : pa.state = ProcessState.Ready
      · rw [if_pos hpa] at h
        injection h with h
        rw [Prod.mk.injEq, Prod.mk.injEq] at h
        obtain ⟨e1, e2, e3⟩ := h
        subst e1
        subst e2
        subst e3
        refine ⟨⟨pa, hfa, hpa, rfl⟩, fun e he => List.mem_cons_of_mem _ he, ?_⟩
        intro e he
        rcases List.mem_cons.mp he with h1 | h1
        · exact Or.inl h1
        · exact Or.inr (Or.inl h1)
      · rw [if_neg hpa] at h
        obtain ⟨hA, hB, hC⟩ := ih h
        refine ⟨hA, fun e he => List.mem_cons_of_mem _ (hB e he), ?_⟩
        intro e he
        rcases List.mem_cons.mp he with h1 | h1
        · subst h1
          refine Or.inr (Or.inr ?_)
          intro r hr
          rw [hfa] at hr
          cases hr
          exact hpa
        · exact hC e h1
    | none =>
      rw [hfa] at h
      simp only [] at h
      obtain ⟨hA, hB, hC⟩ := ih h
      refine ⟨hA, fun e he => List.mem_cons_of_mem _ (hB e he), ?_⟩
      intro e he
      rcases List.mem_cons.mp he with h1 | h1
      · subst h1
        refine Or.inr (Or.inr ?_)
        intro r hr
        rw [hfa] at hr
        cases hr
      · exact hC e h1

theorem demoteCurrent_spec (m : ProcessManager) (c : Nat)
    (h1 : ∀ p ∈ m.processes, p.pid < c)
    (h2 : (m.processes.map Process.pid).Nodup)
    (h3 : ∀ p ∈ m.processes, p.state = ProcessState.Running → m.current_pid = some p.pid)
    (h4 : ∀ q, m.current_pid = some q →
        ∃ p ∈ m.processes, p.pid = q ∧ p.state = ProcessState.Running)
    (h5 : ∀ p ∈ m.processes, p.state = ProcessState.Ready → p.pid ∈ m.ready_queue)
    (h6 : ∀ q ∈ m.ready_queue, q ∈ m.processes.map Process.pid) :
    MidInv (demoteCurrent m) c ∧
    (demoteCurrent m).current_pid = m.current_pid ∧
    (∀ cp, m.current_pid = some cp →
      ∃ r, findFirst (demoteCurrent m).processes cp = some r ∧
        r.state = ProcessState.Ready ∧ cp ∈ (demoteCurrent m).ready_queue) := by
  cases hc : m.current_pid with
  | none =>
    have hDm : demoteCurrent m = m := by
      unfold demoteCurrent
      rw [hc]
    rw [hDm]
    refine ⟨⟨h1, h2, ?_, h5, h6⟩, hc, ?_⟩
    · intro x hx hxr
      have := h3 x hx hxr
      rw [hc] at this
      cases this
    · intro cp hcp
      cases hcp
  | some cp =>
    obtain ⟨p, hp, hpid, hrun⟩ := h4 cp hc
    have hfind : findFirst m.processes cp = some p := by
      have := findFirst_of_mem h2 hp
      rw [hpid] at this
      exact this
    have hDm : demoteCurrent m = { m with
        processes := (modifyFirst m.processes cp
          (fun q => { q with state := ProcessState.Ready })),
        ready_queue := m.ready_queue ++ [cp] } := by
      unfold demoteCurrent
      rw [hc]
      simp only []
      rw [hfind]
      simp only []
      rw [if_pos hrun]
    rw [hDm]
    have hmap := modifyFirst_map_pid m.processes cp
      (fun q => { q with state := ProcessState.Ready }) (fun x => rfl)
    refine ⟨⟨pids_lt_of_map_eq hmap h1, by rw [hmap]; exact h2, ?_, ?_, ?_⟩, hc, ?_⟩
    · intro x hx hxr
      rcases mem_modifyFirst_nodup h2 hx with ⟨hxm, hxne⟩ | ⟨p', hp', hxf⟩
      · have := h3 x hxm hxr
        rw [hc] at this
        injection this with this
        exact hxne this.symm
      · rw [hxf] at hxr
        simp only [] at hxr
        cases hxr
    · intro x hx hxr
      rcases mem_modifyFirst_nodup h2 hx with ⟨hxm, _⟩ | ⟨p', hp', hxf⟩
      · exact List.mem_append_left _ (h5 x hxm hxr)
      · obtain ⟨hp'm, hp'pid⟩ := findFirst_some hp'
        rw [hxf]
        simp only []
        rw [hp'pid]
        exact List.mem_append_right _ (by simp)
    · intro q hq
      rw [hmap]
      rcases List.mem_append.mp hq with h | h
      · exact h6 q h
      · rw [List.mem_singleton] at h
        subst h
        rw [← hpid]
        exact List.mem_map_of_mem Process.pid hp
    · intro cp' hcp'
      injection hcp' with hcp'
      subst hcp'
      exact ⟨_, findFirst_modifyFirst_self (fun x => rfl) hfind, rfl,
        List.mem_append_right _ (by simp)⟩


theorem select_phase_inv (md : ProcessManager) (c : Nat)
    (hmid : MidInv md c)
    (hcur : ∀ q, md.current_pid = some q →
      ∃ r, findFirst md.processes q = some r ∧ r.state = ProcessState.Ready ∧
        q ∈ md.ready_queue) :
    PMInv { manager := (selectPhase md).2, pid_counter := c } := by
  obtain ⟨m1, m2, m3, m4, m5⟩ := hmid
  unfold selectPhase
  cases hsel : selectNext md.processes md.ready_queue with
  | none =>
    simp only []
    refine ⟨m1, m2, ?_, ?_, ?_, ?_⟩
    · intro x hx hxr
      exact absurd hxr (m3 x hx)
    · intro q hq
      simp only [] at hq
      obtain ⟨r, hfr, hrr, hcp⟩ := hcur q hq
      exact absurd hrr (selectNext_none_spec hsel q hcp r hfr)
    · intro x hx hxr
      exfalso
      have hin := m4 x hx hxr
      exact selectNext_none_spec hsel x.pid hin x (findFirst_of_mem m2 hx) hxr
    · intro q hq
      cases hq
  | some trip =>
    obtain ⟨pid, ps2, rest⟩ := trip
    simp only []
    obtain ⟨⟨p2, hfp2, hp2r, hps2⟩, hrestsub, hreten⟩ := selectNext_some_spec hsel
    subst hps2
    have hmapg := modifyFirst_map_pid md.processes pid
      (fun x => { x with state := ProcessState.Running }) (fun x => rfl)
    obtain ⟨hp2m, hp2pid⟩ := findFirst_some hfp2
    refine ⟨pids_lt_of_map_eq hmapg m1, by rw [hmapg]; exact m2, ?_, ?_, ?_, ?_⟩
    · intro x hx hxr
      rcases mem_modifyFirst_nodup m2 hx with ⟨hxm, hxne⟩ | ⟨p', hp', hxf⟩
      · exact absurd hxr (m3 x hxm)
      · rw [hfp2] at hp'
        injection hp' with hp'
        subst hp'
        rw [hxf]
        simp only []
        rw [hp2pid]
    · intro q hq
      simp only [] at hq
      injection hq with hq
      subst hq
      refine ⟨_, modified_mem_modifyFirst _ hfp2, ?_, rfl⟩
      simp only []
      exact hp2pid
    · intro x hx hxr
      rcases mem_modifyFirst_nodup m2 hx with ⟨hxm, hxne⟩ | ⟨p', hp', hxf⟩
      · have hq := m4 x hxm hxr
        rcases hreten x.pid hq with he | he | he
        · exact absurd he hxne
        · exact he
        · exact absurd hxr (he x (findFirst_of_mem m2 hxm))
      · rw [hfp2] at hp'
        injection hp' with hp'
        subst hp'
        rw [hxf] at hxr
        simp only [] at hxr
        cases hxr
    · intro q hq
      rw [hmapg]
      exact m5 q (hrestsub q hq)

theorem schedule_inv_step (s : ProcSys) (hinv : PMInv s) :
    PMInv { manager := (s.manager.schedule).2, pid_counter := s.pid_counter } := by
  obtain ⟨h1, h2, h3, h4, h5, h6⟩ := hinv
  obtain ⟨hmid, hcur0, hdem⟩ :=
    demoteCurrent_spec
      { s.manager with scheduler_ticks := s.manager.scheduler_ticks + 1 }
      s.pid_counter h1 h2 h3 h4 h5 h6
  have key := select_phase_inv
    (demoteCurrent { s.manager with scheduler_ticks := s.manager.scheduler_ticks + 1 })
    s.pid_counter hmid
    (fun q hq => hdem q (by rw [hcur0] at hq; exact hq))
  exact key

theorem add_preserve (s : ProcSys) (hinv : PMInv s) :
    PMInv { manager := s.manager.add_process (Process.new s.pid_counter),
            pid_counter := s.pid_counter + 1 } := by
  obtain ⟨h1, h2, h3, h4, h5, h6⟩ := hinv
  unfold ProcessManager.add_process Process.new
  refine ⟨?_, ?_, ?_, ?_, ?_, ?_⟩
  · intro p hp
    rcases List.mem_append.mp hp with h | h
    · exact Nat.lt_succ_of_lt (h1 p h)
    · rw [List.mem_singleton] at h
      subst h
      simp only []
      omega
  · rw [List.map_append]
    simp only [List.map_cons, List.map_nil]
    rw [List.nodup_append]
    refine ⟨h2, by simp, ?_⟩
    intro a ha hb
    rw [List.mem_singleton] at hb
    subst hb
    obtain ⟨y, hy, hyp⟩ := List.mem_map.mp ha
    have := h1 y hy
    simp only [] at this ⊢
    omega
  · intro p hp hr
    rcases List.mem_append.mp hp with h | h
    · exact h3 p h hr
    · rw [List.mem_singleton] at h
      subst h
      simp only [] at hr
      cases hr
  · intro q hq
    obtain ⟨p, hp, hpid, hpr⟩ := h4 q hq
    exact ⟨p, List.mem_append_left _ hp, hpid, hpr⟩
  · intro p hp hr
    rcases List.mem_append.mp hp with h | h
    · exact List.mem_append_left _ (h5 p h hr)
    · rw [List.mem_singleton] at h
      subst h
      exact List.mem_append_right _ (by simp)
  · intro q hq
    rw [List.map_append]
    rcases List.mem_append.mp hq with h | h
    · exact List.mem_append_left _ (h6 q h)
    · rw [List.mem_singleton] at h
      subst h
      exact List.mem_append_right _ (by simp)

theorem term_preserve (s : ProcSys) (hinv : PMInv s) :
    PMInv { manager := s.manager.terminate_current, pid_counter := s.pid_counter } := by
  obtain ⟨h1, h2, h3, h4, h5, h6⟩ := hinv
  cases hc : s.manager.current_pid with
  | none =>
    have he : s.manager.terminate_current = s.manager := by
      unfold ProcessManager.terminate_current
      rw [hc]
    rw [he]
    exact ⟨h1, h2, h3, h4, h5, h6⟩
  | some cp =>
    have he : s.manager.terminate_current = { s.manager with
        processes := (modifyFirst s.manager.processes cp
          (fun p => { p with state := ProcessState.Terminated })),
        current_pid := none } := by
      unfold ProcessManager.terminate_current
      rw [hc]
    rw [he]
    have hmap := modifyFirst_map_pid s.manager.processes cp
      (fun p => { p with state := ProcessState.Terminated }) (fun x => rfl)
    refine ⟨pids_lt_of_map_eq hmap h1, by rw [hmap]; exact h2, ?_, ?_, ?_, ?_⟩
    · intro x hx hxr
      exfalso
      rcases mem_modifyFirst_nodup h2 hx with ⟨hxm, hxne⟩ | ⟨p', hp', hxf⟩
      · have := h3 x hxm hxr
        rw [hc] at this
        injection this with this
        exact hxne this.symm
      · rw [hxf] at hxr
        simp only [] at hxr
        cases hxr
    · intro q hq
      cases hq
    · intro x hx hxr
      rcases mem_modifyFirst_nodup h2 hx with ⟨hxm, _⟩ | ⟨p', hp', hxf⟩
      · exact h5 x hxm hxr
      · exfalso
        rw [hxf] at hxr
        simp only [] at hxr
        cases hxr
    · intro q hq
      rw [hmap]
      exact h6 q hq

theorem block_preserve (s : ProcSys) (hinv : PMInv s) :
    PMInv { manager := s.manager.block_current, pid_counter := s.pid_counter } := by
  obtain ⟨h1, h2, h3, h4, h5, h6⟩ := hinv
  cases hc : s.manager.current_pid with
  | none =>
    have he : s.manager.block_current =
        { s.manager with processes := s.manager.processes, current_pid := none } := by
      unfold ProcessManager.block_current
      rw [hc]
    rw [he]
    refine ⟨h1, h2, ?_, ?_, h5, h6⟩
    · intro x hx hxr
      exfalso
      have := h3 x hx hxr
      rw [hc] at this
      cases this
    · intro q hq
      cases hq
  | some cp =>
    have he : s.manager.block_current = { s.manager with
        processes := (modifyFirst s.manager.processes cp
          (fun p => { p with state := ProcessState.Blocked })),
        current_pid := none } := by
      unfold ProcessManager.block_current
      rw [hc]
    rw [he]
    have hmap := modifyFirst_map_pid s.manager.processes cp
      (fun p => { p with state := ProcessState.Blocked }) (fun x => rfl)
    refine ⟨pids_lt_of_map_eq hmap h1, by rw [hmap]; exact h2, ?_, ?_, ?_, ?_⟩
    · intro x hx hxr
      exfalso
      rcases mem_modifyFirst_nodup h2 hx with ⟨hxm, hxne⟩ | ⟨p', hp', hxf⟩
      · have := h3 x hxm hxr
        rw [hc] at this
        injection this with this
        exact hxne this.symm
      · rw [hxf] at hxr
        simp only [] at hxr
        cases hxr
    · intro q hq
      cases hq
    · intro x hx hxr
      rcases mem_modifyFirst_nodup h2 hx with ⟨hxm, _⟩ | ⟨p', hp', hxf⟩
      · exact h5 x hxm hxr
      · exfalso
        rw [hxf] at hxr
        simp only [] at hxr
        cases hxr
    · intro q hq
      rw [hmap]
      exact h6 q hq

theorem unblock_preserve (s : ProcSys) (pid : Nat) (hinv : PMInv s) :
    PMInv { manager := s.manager.unblock_process pid, pid_counter := s.pid_counter } := by
  obtain ⟨h1, h2, h3, h4, h5, h6⟩ := hinv
  cases hf : findFirst s.manager.processes pid with
  | none =>
    have he : s.manager.unblock_process pid = s.manager := by
      unfold ProcessManager.unblock_process
      rw [hf]
    rw [he]
    exact ⟨h1, h2, h3, h4, h5, h6⟩
  | some p =>
    obtain ⟨hpm, hppid⟩ := findFirst_some hf
    by_cases hb : p.state = ProcessState.Blocked
    · have he : s.manager.unblock_process pid = { s.manager with
          processes := (modifyFirst s.manager.processes pid
            (fun q => { q with state := ProcessState.Ready })),
          ready_queue := s.manager.ready_queue ++ [pid] } := by
        unfold ProcessManager.unblock_process
        rw [hf]
        simp only []
        rw [if_pos hb]
      rw [he]
      have hmap := modifyFirst_map_pid s.manager.processes pid
        (fun q => { q with state := ProcessState.Ready }) (fun x => rfl)
      refine ⟨pids_lt_of_map_eq hmap h1, by rw [hmap]; exact h2, ?_, ?_, ?_, ?_⟩
      · intro x hx hxr
        rcases mem_modifyFirst_nodup h2 hx with ⟨hxm, _⟩ | ⟨p', hp', hxf⟩
        · exact h3 x hxm hxr
        · exfalso
          rw [hxf] at hxr
          simp only [] at hxr
          cases hxr
      · intro q hq
        obtain ⟨w, hwm, hwpid, hwr⟩ := h4 q hq
        have hwne : w.pid ≠ pid := by
          intro heq
          have hfw := findFirst_of_mem h2 hwm
          rw [heq, hf] at hfw
          injection hfw with hfw
          rw [hfw] at hb
          rw [hwr] at hb
          cases hb
        exact ⟨w, mem_modifyFirst_of_ne hwm hwne, hwpid, hwr⟩
      · intro x hx hxr
        rcases mem_modifyFirst_nodup h2 hx with ⟨hxm, _⟩ | ⟨p', hp', hxf⟩
        · exact List.mem_append_left _ (h5 x hxm hxr)
        · rw [hf] at hp'
          injection hp' with hp'
          subst hp'
          rw [hxf]
          simp only []
          rw [hppid]
          exact List.mem_append_right _ (by simp)
      · intro q hq
        rw [hmap]
        rcases List.mem_append.mp hq with h | h
        · exact h6 q h
        · rw [List.mem_singleton] at h
          subst h
          rw [← hppid]
          exact List.mem_map_of_mem Process.pid hpm
    · have he : s.manager.unblock_process pid = s.manager := by
        unfold ProcessManager.unblock_process
        rw [hf]
        simp only []
        rw [if_neg hb]
      rw [he]
      exact ⟨h1, h2, h3, h4, h5, h6⟩

theorem pminv_start : PMInv ProcSys.start := by
  refine ⟨?_, ?_, ?_, ?_, ?_, ?_⟩
  · intro p hp
    cases hp
  · simp [ProcSys.start, ProcessManager.new]
  · intro p hp
    cases hp
  · intro q hq
    cases hq
  · intro p hp
    cases hp
  · intro q hq
    cases hq

/-- Every reachable state of the process subsystem satisfies the inductive
invariant. -/
theorem pminv_reachable (s : ProcSys) (h : ProcReachable s) : PMInv s := by
  induction h with
  | start => exact pminv_start
  | step hr hstep ih =>
    cases hstep with
    | add => exact add_preserve _ ih
    | sched => exact schedule_inv_step _ ih
    | term => exact term_preserve _ ih
    | block => exact block_preserve _ ih
    | unblock pid => exact unblock_preserve _ pid ih

theorem countP_running_le_one {ps : List Process} {cur : Option Nat}
    (hnd : (ps.map Process.pid).Nodup)
    (h : ∀ p ∈ ps, p.state = ProcessState.Running → cur = some p.pid) :
    ps.countP (fun p => p.state == ProcessState.Running) ≤ 1 := by
  induction ps with
  | nil => simp
  | cons a tl ih =>
    rw [List.map_cons, List.nodup_cons] at hnd
    rw [List.countP_cons]
    by_cases ha : a.state = ProcessState.Running
    · have hca := h a (List.mem_cons_self _ _) ha
      have htl : tl.countP (fun p => p.state == ProcessState.Running) = 0 := by
        rw [List.countP_eq_zero]
        intro x hx
        simp only [beq_iff_eq]
        intro hxr
        have hcx := h x (List.mem_cons_of_mem _ hx) hxr
        rw [hca] at hcx
        injection hcx with hcx
        exact hnd.1 (hcx ▸ List.mem_map_of_mem Process.pid hx)
      rw [htl]
      simp [ha]
    · have hih := ih hnd.2 (fun p hp hr => h p (List.mem_cons_of_mem _ hp) hr)
      simp only [beq_iff_eq]
      rw [if_neg ha]
      omega

/-- C3: in every state of the process subsystem reachable from the initial
state by `add_process` (spawn), `schedule`, `terminate_current`,
`block_current` and `unblock_process`, at most one process in the process
table is in state `Running`. -/
theorem at_most_one_running (s : ProcSys) (hr : ProcReachable s) :
    s.manager.processes.countP (fun p => p.state == ProcessState.Running) ≤ 1 := by
  obtain ⟨h1, h2, h3, h4, h5, h6⟩ := pminv_reachable s hr
  exact countP_running_le_one h2 h3

/-- Witness for C3 at the concrete reachable state `pmDemo`. -/
theorem at_most_one_running_witness :
    pmDemo.manager.processes.countP (fun p => p.state == ProcessState.Running) ≤ 1 :=
  at_most_one_running pmDemo
    (ProcReachable.step
      (ProcReachable.step
        (ProcReachable.step
          (ProcReachable.step ProcReachable.start (ProcStep.add _))
          (ProcStep.add _))
        (ProcStep.sched _))
      (ProcStep.sched _))

/-- C8: in every reachable process-subsystem state holding exactly one
process that is `Ready` or `Running`, invoking `schedule` (and neither
blocking nor exiting it) selects that process: `schedule` returns its pid,
leaves it `Running`, and makes it current. -/
theorem single_process_liveness (s : ProcSys) (p : Process)
    (hr : ProcReachable s)
    (hone : s.manager.processes = [p])
    (hst : p.state = ProcessState.Ready ∨ p.state = ProcessState.Running) :
    (s.manager.schedule).1 = some p.pid ∧
    (s.manager.schedule).2.processes = [{ p with state := ProcessState.Running }] ∧
    (s.manager.schedule).2.current_pid = some p.pid := by
  obtain ⟨h1, h2, h3, h4, h5, h6⟩ := pminv_reachable s hr
  have hmem : p ∈ s.manager.processes := by
    rw [hone]
    exact List.mem_cons_self _ _
  rcases hst with hrdy | hrun
  · -- p is Ready: the current pointer must be empty and the pid is queued
    have hcp : s.manager.current_pid = none := by
      cases hc : s.manager.current_pid with
      | none => rfl
      | some q =>
        obtain ⟨w, hwm, hwpid, hwr⟩ := h4 q hc
        rw [hone, List.mem_singleton] at hwm
        subst hwm
        rw [hrdy] at hwr
        cases hwr
    have hd : demoteCurrent
        { s.manager with scheduler_ticks := s.manager.scheduler_ticks + 1 } =
        { s.manager with scheduler_ticks := s.manager.scheduler_ticks + 1 } := by
      unfold demoteCurrent
      simp only []
      rw [hcp]
    have hqmem : p.pid ∈ s.manager.ready_queue := h5 p hmem hrdy
    obtain ⟨rest, hqe⟩ : ∃ rest, s.manager.ready_queue = p.pid :: rest := by
      cases hq : s.manager.ready_queue with
      | nil =>
        rw [hq] at hqmem
        cases hqmem
      | cons a tl =>
        have ha : a = p.pid := by
          have := h6 a (by rw [hq]; exact List.mem_cons_self _ _)
          rw [hone] at this
          simpa using this
        exact ⟨tl, by rw [ha]⟩
    have hselEq : selectNext [p] (p.pid :: rest) =
        some (p.pid, [{ p with state := ProcessState.Running }], rest) := by
      rw [selectNext_cons, findFirst_cons, if_pos rfl]
      simp only []
      rw [if_pos hrdy, modifyFirst_cons, if_pos rfl]
    have hsched : s.manager.schedule = (some p.pid,
        { s.manager with scheduler_ticks := s.manager.scheduler_ticks + 1,
                         processes := [{ p with state := ProcessState.Running }],
                         ready_queue := rest,
                         current_pid := some p.pid }) := by
      unfold ProcessManager.schedule
      rw [hd]
      unfold selectPhase
      simp only []
      rw [hone, hqe, hselEq]
    rw [hsched]
    exact ⟨rfl, rfl, rfl⟩
  · -- p is Running: it is demoted, re-enqueued and immediately re-selected
    have hcp : s.manager.current_pid = some p.pid := h3 p hmem hrun
    have hfind : findFirst s.manager.processes p.pid = some p := by
      rw [hone, findFirst_cons, if_pos rfl]
    have hd : demoteCurrent
        { s.manager with scheduler_ticks := s.manager.scheduler_ticks + 1 } =
        { s.manager with scheduler_ticks := s.manager.scheduler_ticks + 1,
                         processes := [{ p with state := ProcessState.Ready }],
                         ready_queue := s.manager.ready_queue ++ [p.pid] } := by
      unfold demoteCurrent
      simp only []
      rw [hcp]
      simp only []
      rw [hfind]
      simp only []
      rw [if_pos hrun, hone, modifyFirst_cons, if_pos rfl]
    obtain ⟨rest, hqe⟩ : ∃ rest, s.manager.ready_queue ++ [p.pid] = p.pid :: rest := by
      cases hq : s.manager.ready_queue with
      | nil => exact ⟨[], rfl⟩
      | cons a tl =>
        have ha : a = p.pid := by
          have := h6 a (by rw [hq]; exact List.mem_cons_self _ _)
          rw [hone] at this
          simpa using this
        exact ⟨tl ++ [p.pid], by rw [ha]; rfl⟩
    have hselEq : selectNext [{ p with state := ProcessState.Ready }] (p.pid :: rest) =
        some (p.pid, [{ p with state := ProcessState.Running }], rest) := by
      simp [selectNext_cons, findFirst_cons, modifyFirst_cons]
    have hsched : s.manager.schedule = (some p.pid,
        { s.manager with scheduler_ticks := s.manager.scheduler_ticks + 1,
                         processes := [{ p with state := ProcessState.Running }],
                         ready_queue := rest,
                         current_pid := some p.pid }) := by
      unfold ProcessManager.schedule
      rw [hd]
      unfold selectPhase
      simp only []
      rw [hqe, hselEq]
    rw [hsched]
    exact ⟨rfl, rfl, rfl⟩

/-- Witness for C8: the subsystem with the single freshly spawned process
pid 1. -/
theorem single_process_liveness_witness :
    (pmOne.manager.schedule).1 = some 1 ∧
    (pmOne.manager.schedule).2.processes =
      [{ pid := 1, state := ProcessState.Running, priority := 10, time_slice := 10 }] ∧
    (pmOne.manager.schedule).2.current_pid = some 1 :=
  single_process_liveness pmOne
    { pid := 1, state := ProcessState.Ready, priority := 10, time_slice := 10 }
    (ProcReachable.step ProcReachable.start (ProcStep.add _))
    (by decide) (Or.inl rfl)

end RomanticOS
